import Mathlib

/-!
Shallow embedding of the Kontour Coin ledger core
(src/quantum-blockchain/backend/kontour_coin.py, with the oracle's
result shape from quantum_kontour_integration.py).

Modelling conventions:
* Python floats (amounts, balances) are modelled as `ℚ`; every amount
  appearing in these claims is a small integer, on which 64-bit float
  arithmetic is exact.
* Python dicts used as address → balance maps are modelled as
  association lists with Python-dict semantics: `get(k, 0)` returns the
  first binding or the default, assignment updates the existing binding
  or appends a fresh one, `k in d` is key membership.  `d[k] -= v` and
  `d[k] += v` on a missing key raise `KeyError`; that exception path is
  modelled explicitly (see `applyTxs` and `MineResult.keyError`).
* `hashlib.sha256(...).hexdigest()`, the built-in `hash` (randomized by
  PYTHONHASHSEED), `json.dumps(..., sort_keys=True)` of a block dict,
  and Python's `f"{...}"` rendering of floats and of the str-Enum
  transaction type are external, environment-dependent string functions;
  they are the fields of a `HashModel` parameter.  Nothing else about
  them is assumed except where a theorem states an explicit hypothesis
  (e.g. that sha256 hexdigests have 64 characters).
* Calls to `time.time()` and to `random.choice` are nondeterministic
  inputs; they are passed as explicit arguments (`now`, `suffix`, ...).
* The oracle call `self.quantum.quantum_enhanced_mining(block_data,
  difficulty)` performs a nondeterministic quantum-circuit simulation;
  the value it returned is passed to `mine_block` as an `OracleResult`
  argument, and the oracle's own deterministic helpers
  (`_simulate_hash`, `_check_hash_difficulty`) are embedded below.
* The smart-contract and AI-model registries are not touched by any of
  the verified claims and are omitted from the state.
-/

/-- `TransactionType` from kontour_coin.py. -/
inductive TxType where
  | transfer
  | smart_contract
  | ai_training
  | quantum_computing
deriving DecidableEq, Repr

/-- `TransactionStatus` from kontour_coin.py. -/
inductive TxStatus where
  | pending
  | confirmed
  | rejected
deriving DecidableEq, Repr

/-- A transaction dict as built by `KontourCoin.create_transaction` /
the reward transaction in `mine_block`.  The `data` payload is an
opaque canonical-JSON string, `none` standing for a falsy payload
(`None` or `\x7b\x7d`). -/
structure Tx where
  sender : String
  recipient : String
  amount : ℚ
  timestamp : ℤ
  ty : TxType
  data : Option String
  status : TxStatus
  hash : String
deriving DecidableEq, Repr

/-- The `quantum_metrics` dict of a block: genesis blocks carry the
fixed `\x7b"mining_speedup": 1.0, "verification_accuracy": 1.0\x7d` map, a
candidate block carries `\x7b\x7d`, and a mined block carries the four
oracle-reported figures. -/
inductive QuantumMetrics where
  | genesisMetrics
  | emptyMetrics
  | miningMetrics (speedup elapsed : ℚ) (depth width : ℤ)
deriving DecidableEq, Repr

/-- A block dict as built by `_create_genesis_block` / `mine_block`. -/
structure Block where
  index : ℕ
  timestamp : ℤ
  transactions : List Tx
  previous_hash : String
  nonce : ℤ
  difficulty : ℤ
  hash : String
  quantum_enhanced : Bool
  quantum_metrics : QuantumMetrics
deriving DecidableEq, Repr

/-- A block minus its `hash` field: the dict that `_calculate_hash`
serializes after `del block_copy["hash"]`. -/
structure BlockBody where
  index : ℕ
  timestamp : ℤ
  transactions : List Tx
  previous_hash : String
  nonce : ℤ
  difficulty : ℤ
  quantum_enhanced : Bool
  quantum_metrics : QuantumMetrics
deriving DecidableEq, Repr

/-- The copy-and-delete-hash step of `_calculate_hash`. -/
def Block.body (b : Block) : BlockBody :=
  { index := b.index, timestamp := b.timestamp, transactions := b.transactions,
    previous_hash := b.previous_hash, nonce := b.nonce, difficulty := b.difficulty,
    quantum_enhanced := b.quantum_enhanced, quantum_metrics := b.quantum_metrics }

/-- The environment-dependent string functions the ledger calls out to:
`sha256` is `hashlib.sha256(·.encode()).hexdigest()`; `pyHash` is the
built-in `hash` on strings (randomized per process); `serializeBlock`
is `json.dumps(block_dict, sort_keys=True)` of a full block dict (the
`hash` key present); `serializeBody` is the same for a block dict whose
`hash` key was deleted; `floatRepr` and `tyRepr` are Python's f-string
rendering of a float amount and of the str-Enum transaction type. -/
structure HashModel where
  sha256 : String → String
  pyHash : String → ℤ
  serializeBlock : Block → String
  serializeBody : BlockBody → String
  floatRepr : ℚ → String
  tyRepr : TxType → String

/-- `KontourCoin._calculate_hash`: copy the block, delete `hash`,
`json.dumps(..., sort_keys=True)`, sha256-hexdigest. -/
def calculate_hash (M : HashModel) (block : Block) : String :=
  M.sha256 (M.serializeBody block.body)

/-- Address → balance map (`self.accounts`), Python-dict style. -/
abbrev AccountMap : Type := List (String × ℚ)

/-- `d.get(k, 0)`. -/
def getBalD : AccountMap → String → ℚ
  | [], _ => 0
  | (k, v) :: rest, a => if k = a then v else getBalD rest a

/-- `k in d`. -/
def hasKey : AccountMap → String → Bool
  | [], _ => false
  | (k, _) :: rest, a => if k = a then true else hasKey rest a

/-- `d[k] = v`: overwrite the existing binding or append a fresh one. -/
def setBal : AccountMap → String → ℚ → AccountMap
  | [], a, v => [(a, v)]
  | (k, w) :: rest, a, v => if k = a then (a, v) :: rest else (k, w) :: setBal rest a v

/-- Sum of all stored balances (for the conservation claims). -/
def sumBalances (m : AccountMap) : ℚ :=
  (m.map Prod.snd).sum

/-- In-memory ledger state: `self.blockchain`, `self.pending_transactions`,
`self.accounts`. -/
structure LState where
  blockchain : List Block
  pending : List Tx
  accounts : AccountMap
deriving DecidableEq

/-- Placeholder block for the (unreachable) `IndexError` cases of
indexing an empty list; never inspected on any reachable path. -/
def dummyBlock : Block :=
  { index := 0, timestamp := 0, transactions := [], previous_hash := "",
    nonce := 0, difficulty := 0, hash := "", quantum_enhanced := false,
    quantum_metrics := .emptyMetrics }

/-- The 64-character string `"0" * 64`. -/
def zeros64 : String := String.mk (List.replicate 64 '0')

/-- `_create_genesis_block`: the dict is built with `hash = "0" * 64`,
then its `hash` field is overwritten with `_calculate_hash` of the
block. -/
def genesisBlock (M : HashModel) (ts : ℤ) : Block :=
  let g0 : Block :=
    { index := 0, timestamp := ts, transactions := [], previous_hash := zeros64,
      nonce := 0, difficulty := 4, hash := zeros64, quantum_enhanced := true,
      quantum_metrics := .genesisMetrics }
  { g0 with hash := calculate_hash M g0 }

/-- `_create_initial_accounts`. -/
def initialAccounts : AccountMap :=
  [("KTR1000000000000000000000000000000", 1000000),
   ("KTR2000000000000000000000000000000", 500000),
   ("KTR3000000000000000000000000000000", 250000)]

/-- `get_account_balance`: `self.accounts.get(address, 0)`. -/
def get_account_balance (s : LState) (address : String) : ℚ :=
  getBalD s.accounts address

/-- `create_account`: the generated address is `"KTR"` followed by 31
random hex characters; the random choices are the `suffix` argument.
The account is initialized with zero balance. -/
def create_account (suffix : String) (s : LState) : String × LState :=
  let address := "KTR" ++ suffix
  (address, { s with accounts := setBal s.accounts address 0 })

/-- Result of `create_transaction`: the `{"error": "Insufficient
balance"}` dict or the created transaction. -/
inductive TxResult where
  | insufficientBalance
  | created (t : Tx)
deriving DecidableEq

/-- Whether `create_transaction` succeeded. -/
def TxResult.isCreated : TxResult → Bool
  | .insufficientBalance => false
  | .created _ => true

/-- `create_transaction`: reject iff the sender's stored balance is
below `amount` (nothing is reserved); otherwise build the transaction,
hash `f"\x7bsender\x7d\x7brecipient\x7d\x7bamount\x7d\x7btimestamp\x7d\x7btype\x7d"` plus the canonical
dump of a truthy `data`, and append it to the pending pool. -/
def create_transaction (M : HashModel) (s : LState) (sender recipient : String)
    (amount : ℚ) (transaction_type : TxType) (dataJson : Option String)
    (now : ℤ) : TxResult × LState :=
  if get_account_balance s sender < amount then
    (.insufficientBalance, s)
  else
    let transaction_data :=
      sender ++ recipient ++ M.floatRepr amount ++ toString now
        ++ M.tyRepr transaction_type ++ (dataJson.getD "")
    let t : Tx :=
      { sender := sender, recipient := recipient, amount := amount,
        timestamp := now, ty := transaction_type, data := dataJson,
        status := .pending, hash := M.sha256 transaction_data }
    (.created t, { s with pending := s.pending ++ [t] })

/-- `_adjust_difficulty(last_block)`: re-evaluate only when
`last_block.index % 10 == 0 and last_block.index > 0`; then take the
last 10 blocks of the chain (`self.blockchain[-10:]`) and compare the
average inter-block time `(last.timestamp - first.timestamp) / 9`
(exact Python float division of small integer differences, modelled in
`ℚ`) against the 30s / 90s dead band, flooring decreases at 1. -/
def adjust_difficulty (chain : List Block) (last_block : Block) : ℤ :=
  let current_difficulty := last_block.difficulty
  if last_block.index % 10 = 0 ∧ 0 < last_block.index then
    let last_10_blocks := chain.drop (chain.length - 10)
    let avg_block_time : ℚ :=
      (((last_10_blocks.getLastD dummyBlock).timestamp
          - (last_10_blocks.headD dummyBlock).timestamp : ℤ) : ℚ) / 9
    if avg_block_time < 30 then current_difficulty + 1
    else if avg_block_time > 90 then max (current_difficulty - 1) 1
    else current_difficulty
  else current_difficulty

/-- Lowercase hexadecimal rendering `hex(n)[2:].zfill(16)` for the
oracle's simulated 64-bit hash values. -/
def toHex16 (n : ℕ) : String :=
  let ds := Nat.toDigits 16 n
  String.mk (List.replicate (16 - ds.length) '0' ++ ds)

/-- Value of a hexadecimal digit character (`int(·, 16)`); the
`ValueError` branch for a non-hex character is unreachable on the
oracle's own outputs and is defaulted to 0. -/
def hexDigitVal (c : Char) : ℕ :=
  if '0' ≤ c ∧ c ≤ '9' then c.toNat - 48
  else if 'a' ≤ c ∧ c ≤ 'f' then c.toNat - 87
  else if 'A' ≤ c ∧ c ≤ 'F' then c.toNat - 55
  else 0

/-- `int(s, 16)` on a short hex string. -/
def hexVal (s : String) : ℕ :=
  s.toList.foldl (fun acc c => 16 * acc + hexDigitVal c) 0

/-- `QuantumKontourIntegration._simulate_hash(data, nonce, difficulty)`:
`hex(hash(f"\x7bdata\x7d\x7bnonce\x7d") % 2**64)[2:].zfill(16)` (the `difficulty`
argument is unused in the source). -/
def simulate_hash (M : HashModel) (data : String) (nonce : ℤ) : String :=
  toHex16 ((M.pyHash (data ++ toString nonce)).emod (2 ^ 64)).toNat

/-- `QuantumKontourIntegration._check_hash_difficulty(hash_value,
difficulty)`: `int(hash_value[:4], 16) < (2**16) // (difficulty + 1)`
(Python floor division). -/
def check_hash_difficulty (hash_value : String) (difficulty : ℤ) : Bool :=
  (hexVal (hash_value.take 4) : ℤ) < Int.fdiv 65536 (difficulty + 1)

/-- The dict returned by
`QuantumKontourIntegration.quantum_enhanced_mining`: on success it
carries the found nonce, the simulated hash, and the timing/circuit
metrics that `mine_block` copies into the block; on failure only
`success = false` is consulted by `mine_block`. -/
structure OracleResult where
  success : Bool
  nonce : ℤ
  hash : String
  elapsed : ℚ
  quantum_speedup : ℚ
  circuit_depth : ℤ
  circuit_width : ℤ
deriving DecidableEq, Repr

/-- Canonical dump of the reward payload `\x7b"reward": True\x7d`. -/
def rewardDataJson : String := "\x7b\"reward\": true\x7d"

/-- The network-issued reward transaction built inside `mine_block`;
`rewardRepr` is the f-string rendering of the `time.time()` float used
in its hash input. -/
def rewardTxn (M : HashModel) (miner_address : String) (now : ℤ)
    (rewardRepr : String) : Tx :=
  { sender := "NETWORK", recipient := miner_address, amount := 50,
    timestamp := now, ty := .transfer, data := some rewardDataJson,
    status := .confirmed,
    hash := M.sha256 ("REWARD" ++ miner_address ++ rewardRepr) }

/-- Outcome of one `d[k] -= amount` sender debit during block commit:
`NETWORK` senders are skipped, a missing key raises `KeyError`
(modelled as `none`), otherwise the balance is decremented with no
non-negativity check. -/
def debitStep (m : AccountMap) (t : Tx) : Option AccountMap :=
  if t.sender = "NETWORK" then some m
  else if hasKey m t.sender then
    some (setBal m t.sender (getBalD m t.sender - t.amount))
  else none

/-- Outcome of the `d[k] += amount` recipient credit during block
commit: a missing key raises `KeyError` (modelled as `none`); there is
no implicit account creation. -/
def creditStep (m : AccountMap) (t : Tx) : Option AccountMap :=
  if hasKey m t.recipient then
    some (setBal m t.recipient (getBalD m t.recipient + t.amount))
  else none

/-- Result of the balance-update loop of `mine_block`: the account map
after the loop stopped (Python leaves the partial updates in place when
`KeyError` escapes), the number of transactions whose status line was
reached (each of those was flipped to CONFIRMED), and whether the loop
completed. -/
structure ApplyResult where
  accounts : AccountMap
  confirmed : ℕ
  ok : Bool
deriving DecidableEq

/-- The `for transaction in transactions_to_mine` loop of `mine_block`:
debit the sender (unless NETWORK), credit the recipient, flip the
status; a `KeyError` aborts the loop with the updates made so far. -/
def applyTxs (m : AccountMap) : List Tx → ApplyResult
  | [] => { accounts := m, confirmed := 0, ok := true }
  | t :: ts =>
    match debitStep m t with
    | none => { accounts := m, confirmed := 0, ok := false }
    | some m1 =>
      match creditStep m1 t with
      | none => { accounts := m1, confirmed := 0, ok := false }
      | some m2 =>
        let r := applyTxs m2 ts
        { accounts := r.accounts, confirmed := r.confirmed + 1, ok := r.ok }

/-- First `k` transactions with status flipped to CONFIRMED (the loop
mutates the shared transaction dicts in place, so the flips are visible
both in the appended block and in a not-yet-cleared pool). -/
def markConfirmed : ℕ → List Tx → List Tx
  | _, [] => []
  | 0, ts => ts
  | k + 1, t :: ts => { t with status := .confirmed } :: markConfirmed k ts

/-- Outcome of `mine_block`: the `{"error": "No pending transactions to
mine"}` dict, the `{"error": "Mining failed"}` dict, an escaping
`KeyError` exception from the balance loop, or the mined block. -/
inductive MineResult where
  | noPending
  | miningFailed
  | keyError
  | mined (b : Block)
deriving DecidableEq

/-- Whether `mine_block` returned a block. -/
def MineResult.isMined : MineResult → Bool
  | .mined _ => true
  | _ => false

/-- `KontourCoin.mine_block(miner_address)`.  `now` models the
`int(time.time())` calls, `rewardRepr` the float `time.time()` rendered
into the reward hash input, and `oracle` the value returned by the
`quantum_enhanced_mining` call on `(block_data, difficulty)`.  On
oracle success the claimed nonce and hash are written into the block
unchecked, the block is appended, and only then is the balance loop
run — a `KeyError` there leaves the appended block and the partial
balance updates behind, with the pool uncleared. -/
def mine_block (M : HashModel) (s : LState) (miner_address : String)
    (now : ℤ) (rewardRepr : String) (oracle : OracleResult) :
    MineResult × LState :=
  if s.pending.isEmpty then (.noPending, s)
  else
    match s.blockchain.getLast? with
    | none => (.keyError, s)
    | some last_block =>
      let reward_transaction := rewardTxn M miner_address now rewardRepr
      let transactions_to_mine := s.pending ++ [reward_transaction]
      let candidate : Block :=
        { index := last_block.index + 1, timestamp := now,
          transactions := transactions_to_mine,
          previous_hash := last_block.hash, nonce := 0,
          difficulty := adjust_difficulty s.blockchain last_block,
          hash := "", quantum_enhanced := true,
          quantum_metrics := .emptyMetrics }
      let _block_data := M.serializeBlock candidate
      if oracle.success then
        let new_block :=
          { candidate with
            nonce := oracle.nonce, hash := oracle.hash,
            quantum_metrics := .miningMetrics oracle.quantum_speedup
              oracle.elapsed oracle.circuit_depth oracle.circuit_width }
        let r := applyTxs s.accounts transactions_to_mine
        let committed :=
          { new_block with
            transactions := markConfirmed r.confirmed transactions_to_mine }
        if r.ok then
          (.mined committed,
            { blockchain := s.blockchain ++ [committed], pending := [],
              accounts := r.accounts })
        else
          (.keyError,
            { blockchain := s.blockchain ++ [committed],
              pending := markConfirmed r.confirmed s.pending,
              accounts := r.accounts })
      else (.miningFailed, s)

/-- One call into the ledger's mutating API, with all nondeterministic
inputs (random address suffix, clock readings, oracle reply) made
explicit. -/
inductive Op where
  | createAccount (suffix : String)
  | createTransaction (sender recipient : String) (amount : ℚ)
      (ty : TxType) (dataJson : Option String) (now : ℤ)
  | mineBlock (miner : String) (now : ℤ) (rewardRepr : String)
      (oracle : OracleResult)
deriving DecidableEq

/-- Whether an op is a mining call. -/
def Op.isMine : Op → Bool
  | .mineBlock _ _ _ _ => true
  | _ => false

/-- State transition of one API call (error returns leave the state as
the method left it — unchanged for the domain-error returns, partially
mutated for an escaping `KeyError`). -/
def runOp (M : HashModel) (s : LState) : Op → LState
  | .createAccount suffix => (create_account suffix s).2
  | .createTransaction sender recipient amount ty dataJson now =>
    (create_transaction M s sender recipient amount ty dataJson now).2
  | .mineBlock miner now rewardRepr oracle =>
    (mine_block M s miner now rewardRepr oracle).2

/-- State after a sequence of API calls. -/
def run (M : HashModel) (ops : List Op) (s : LState) : LState :=
  ops.foldl (runOp M) s

/-- Number of mining calls in a sequence of ops. -/
def countMines (ops : List Op) : ℕ :=
  (ops.filter Op.isMine).length

/-- The durable snapshot files this core reads and writes:
`blockchain.json` and `accounts.json` (`none` = file absent).  The JSON
round trip itself is value-faithful for these records (str-Enum members
compare equal to their serialized string values, int/float values
survive), so the files are modelled as holding the values directly. -/
structure Disk where
  blockchainFile : Option (List Block)
  accountsFile : Option AccountMap
deriving DecidableEq

/-- A directory with no snapshot files. -/
def emptyDisk : Disk := { blockchainFile := none, accountsFile := none }

/-- `_save_blockchain` followed by `_save_accounts` (what a successful
`mine_block` persists). -/
def snapshotOf (s : LState) : Disk :=
  { blockchainFile := some s.blockchain, accountsFile := some s.accounts }

/-- `KontourCoin.__init__`: start with empty structures, call
`_load_blockchain()` (only — `_load_accounts` is defined in the source
but never invoked), and create the genesis block plus the initial
accounts only when the loaded chain is empty. -/
def kontourInit (M : HashModel) (d : Disk) (ts : ℤ) : LState :=
  let loaded := d.blockchainFile.getD []
  if loaded.isEmpty then
    { blockchain := [genesisBlock M ts], pending := [],
      accounts := initialAccounts }
  else
    { blockchain := loaded, pending := [], accounts := [] }

/-- A concrete environment instance used for the closed counterexample
and witness theorems: a stand-in digest function returning a fixed
64-character string (the length of every real sha256 hexdigest), a
string hash constantly 0 (one of the values Python's randomized string
hash can take), and opaque serializers. -/
def M0 : HashModel :=
  { sha256 := fun _ => String.mk (List.replicate 64 'a'),
    pyHash := fun _ => 0,
    serializeBlock := fun _ => "",
    serializeBody := fun _ => "",
    floatRepr := fun _ => "",
    tyRepr := fun _ => "" }

/-- Initial-account addresses, for readability of the concrete traces. -/
def addrA : String := "KTR1000000000000000000000000000000"

/-- Second initial account. -/
def addrB : String := "KTR2000000000000000000000000000000"

/-- Third initial account. -/
def addrC : String := "KTR3000000000000000000000000000000"

/-- An oracle reply reporting success, with a claimed hash that the
in-repo oracle can produce (`_simulate_hash` under a string-hash seed
mapping the query to 0) and that passes `_check_hash_difficulty` for
every difficulty below 65536. -/
def oracleOk : OracleResult :=
  { success := true, nonce := 5, hash := toHex16 0, elapsed := 1,
    quantum_speedup := 2, circuit_depth := 8, circuit_width := 8 }

/-- An oracle reply reporting success whose claimed hash fails
`_check_hash_difficulty` at difficulty 4. -/
def oracleBogus : OracleResult :=
  { success := true, nonce := 7, hash := "f000000000000000", elapsed := 1,
    quantum_speedup := 2, circuit_depth := 8, circuit_width := 8 }

/-- An oracle reply reporting failure (`max_iterations` exhausted). -/
def oracleFail : OracleResult :=
  { success := false, nonce := 0, hash := "", elapsed := 1,
    quantum_speedup := 0, circuit_depth := 8, circuit_width := 8 }

/-- A transaction with its status line executed
(`transaction["status"] = TransactionStatus.CONFIRMED`). -/
def confirmTx (t : Tx) : Tx :=
  { t with status := .confirmed }

/-- Total amount of the NETWORK-sender transactions in a batch (the
amounts credited without a matching debit during commit). -/
def networkSum (ts : List Tx) : ℚ :=
  ((ts.filter fun t => t.sender == "NETWORK").map Tx.amount).sum

theorem sumBalances_setBal (m : AccountMap) (k : String) (v : ℚ) :
    sumBalances (setBal m k v) = sumBalances m + v - getBalD m k := by
  induction m with
  | nil => simp [setBal, sumBalances, getBalD]
  | cons p rest ih =>
    obtain ⟨k', v'⟩ := p
    by_cases hk : k' = k
    · subst hk
      simp [setBal, sumBalances, getBalD]
      ring
    · simp only [setBal, getBalD, if_neg hk, sumBalances, List.map_cons, List.sum_cons]
      have := ih
      simp only [sumBalances] at this
      rw [this]
      ring

theorem getBalD_eq_zero (m : AccountMap) (k : String) (h : hasKey m k = false) :
    getBalD m k = 0 := by
  induction m with
  | nil => simp [getBalD]
  | cons p rest ih =>
    obtain ⟨k', v'⟩ := p
    by_cases hk : k' = k
    · simp [hasKey, hk] at h
    · simp only [hasKey, if_neg hk] at h
      simp [getBalD, if_neg hk, ih h]

theorem getBalD_nonneg (m : AccountMap) (k : String)
    (h : ∀ p ∈ m, 0 ≤ p.2) : 0 ≤ getBalD m k := by
  induction m with
  | nil => simp [getBalD]
  | cons p rest ih =>
    obtain ⟨k', v'⟩ := p
    by_cases hk : k' = k
    · simpa [getBalD, hk] using h (k', v') (by simp)
    · have h2 := ih (fun q hq => h q (List.mem_cons_of_mem _ hq))
      simpa [getBalD, if_neg hk] using h2

theorem setBal_nonneg (m : AccountMap) (k : String) (v : ℚ)
    (hm : ∀ p ∈ m, 0 ≤ p.2) (hv : 0 ≤ v) :
    ∀ p ∈ setBal m k v, 0 ≤ p.2 := by
  induction m with
  | nil =>
    intro p hp
    simp only [setBal, List.mem_singleton] at hp
    subst hp
    exact hv
  | cons q rest ih =>
    obtain ⟨k', v'⟩ := q
    intro p hp
    by_cases hk : k' = k
    · simp only [setBal, if_pos hk, List.mem_cons] at hp
      rcases hp with h1 | h1
      · subst h1
        exact hv
      · exact hm p (List.mem_cons_of_mem _ h1)
    · simp only [setBal, if_neg hk, List.mem_cons] at hp
      rcases hp with h1 | h1
      · subst h1
        exact hm (k', v') (by simp)
      · exact ih (fun r hr => hm r (List.mem_cons_of_mem _ hr)) p h1

theorem applyTxs_ok_confirmed (ts : List Tx) (m : AccountMap)
    (h : (applyTxs m ts).ok = true) : (applyTxs m ts).confirmed = ts.length := by
  induction ts generalizing m with
  | nil => simp [applyTxs]
  | cons t rest ih =>
    simp only [applyTxs] at h ⊢
    cases hd : debitStep m t with
    | none => simp [hd] at h
    | some m1 =>
      cases hc : creditStep m1 t with
      | none => simp [hd, hc] at h
      | some m2 =>
        simp only [hd, hc] at h ⊢
        simpa using ih m2 h

theorem applyTxs_ok_sum (ts : List Tx) (m : AccountMap)
    (h : (applyTxs m ts).ok = true) :
    sumBalances (applyTxs m ts).accounts = sumBalances m + networkSum ts := by
  induction ts generalizing m with
  | nil => simp [applyTxs, networkSum]
  | cons t rest ih =>
    simp only [applyTxs] at h ⊢
    cases hd : debitStep m t with
    | none => simp [hd] at h
    | some m1 =>
      cases hc : creditStep m1 t with
      | none => simp [hd, hc] at h
      | some m2 =>
        simp only [hd, hc] at h ⊢
        have hrest := ih m2 (by simpa using h)
        have hm2 : sumBalances m2 = sumBalances m1 + t.amount := by
          simp only [creditStep] at hc
          by_cases hr : hasKey m1 t.recipient = true
          · simp only [if_pos hr, Option.some_inj] at hc
            subst hc
            rw [sumBalances_setBal]
            ring
          · simp [hr] at hc
        by_cases hnet : t.sender = "NETWORK"
        · have hm1 : m1 = m := by
            simp only [debitStep, if_pos hnet, Option.some_inj] at hd
            exact hd.symm
          subst hm1
          simp only [networkSum, List.filter_cons, hnet]
          simp only [beq_self_eq_true, if_pos]
          simp only [List.map_cons, List.sum_cons]
          rw [hrest, hm2]
          simp only [networkSum]
          ring
        · have hm1 : sumBalances m1 = sumBalances m - t.amount := by
            simp only [debitStep, if_neg hnet] at hd
            by_cases hs : hasKey m t.sender = true
            · simp only [if_pos hs, Option.some_inj] at hd
              subst hd
              rw [sumBalances_setBal]
              ring
            · simp [hs] at hd
          have hfil : (t :: rest).filter (fun x => x.sender == "NETWORK")
              = rest.filter (fun x => x.sender == "NETWORK") := by
            simp [List.filter_cons, hnet]
          simp only [networkSum, hfil]
          rw [hrest, hm2, hm1]
          simp only [networkSum]
          ring

theorem markConfirmed_all (ts : List Tx) (k : ℕ) (h : ts.length ≤ k) :
    markConfirmed k ts = ts.map confirmTx := by
  induction ts generalizing k with
  | nil => cases k <;> simp [markConfirmed]
  | cons t rest ih =>
    cases k with
    | zero => simp at h
    | succ n =>
      simp only [markConfirmed, List.map_cons, confirmTx]
      exact congrArg _ (ih n (by simpa using h))

theorem markConfirmed_sender (ts : List Tx) (k : ℕ) :
    ∀ t ∈ markConfirmed k ts, ∃ t0 ∈ ts, t.sender = t0.sender := by
  induction ts generalizing k with
  | nil => simp [markConfirmed]
  | cons x rest ih =>
    cases k with
    | zero =>
      intro t ht
      exact ⟨t, by simpa [markConfirmed] using ht, rfl⟩
    | succ n =>
      intro t ht
      simp only [markConfirmed, List.mem_cons] at ht
      rcases ht with h1 | h1
      · exact ⟨x, by simp, by simp [h1]⟩
      · obtain ⟨t0, ht0, hs⟩ := ih n t h1
        exact ⟨t0, List.mem_cons_of_mem _ ht0, hs⟩

/-- The block a successful `mine_block` call appends, expressed in
terms of the pre-call state: all batch transactions confirmed, the
oracle's claimed nonce and hash stored verbatim. -/
def minedBlock (M : HashModel) (s : LState) (miner_address : String)
    (now : ℤ) (rewardRepr : String) (oracle : OracleResult)
    (last_block : Block) : Block :=
  { index := last_block.index + 1, timestamp := now,
    transactions := (s.pending ++ [rewardTxn M miner_address now rewardRepr]).map confirmTx,
    previous_hash := last_block.hash, nonce := oracle.nonce,
    difficulty := adjust_difficulty s.blockchain last_block,
    hash := oracle.hash, quantum_enhanced := true,
    quantum_metrics := .miningMetrics oracle.quantum_speedup oracle.elapsed
      oracle.circuit_depth oracle.circuit_width }

theorem mine_block_empty_pool (M : HashModel) (s : LState)
    (miner : String) (now : ℤ) (rr : String) (o : OracleResult)
    (h : s.pending = []) :
    mine_block M s miner now rr o = (.noPending, s) := by
  simp [mine_block, h]

theorem mine_block_oracle_failed (M : HashModel) (s : LState)
    (miner : String) (now : ℤ) (rr : String) (o : OracleResult)
    (hp : s.pending ≠ []) (hc : s.blockchain ≠ [])
    (ho : o.success = false) :
    mine_block M s miner now rr o = (.miningFailed, s) := by
  have hpe : s.pending.isEmpty = false := by
    simpa [List.isEmpty_iff] using hp
  obtain ⟨last, hlast⟩ : ∃ last, s.blockchain.getLast? = some last := by
    cases hl : s.blockchain.getLast? with
    | none => exact absurd (List.getLast?_eq_none_iff.mp hl) hc
    | some b => exact ⟨b, rfl⟩
  simp [mine_block, hpe, hlast, ho]

theorem mine_block_mined_eq (M : HashModel) (s : LState)
    (miner : String) (now : ℤ) (rr : String) (o : OracleResult)
    (h : (mine_block M s miner now rr o).1.isMined = true) :
    ∃ last, s.blockchain.getLast? = some last ∧ o.success = true ∧
      (applyTxs s.accounts (s.pending ++ [rewardTxn M miner now rr])).ok = true ∧
      mine_block M s miner now rr o =
        (.mined (minedBlock M s miner now rr o last),
          { blockchain := s.blockchain ++ [minedBlock M s miner now rr o last],
            pending := [],
            accounts := (applyTxs s.accounts
              (s.pending ++ [rewardTxn M miner now rr])).accounts }) := by
  by_cases hpe : s.pending.isEmpty
  · simp [mine_block, hpe, MineResult.isMined] at h
  · cases hl : s.blockchain.getLast? with
    | none => simp [mine_block, hpe, hl, MineResult.isMined] at h
    | some last =>
      by_cases ho : o.success
      · by_cases hok : (applyTxs s.accounts (s.pending ++ [rewardTxn M miner now rr])).ok
        · refine ⟨last, rfl, ho, hok, ?_⟩
          have hconf := applyTxs_ok_confirmed
            (s.pending ++ [rewardTxn M miner now rr]) s.accounts hok
          have hmark := markConfirmed_all
            (s.pending ++ [rewardTxn M miner now rr])
            ((applyTxs s.accounts (s.pending ++ [rewardTxn M miner now rr])).confirmed)
            (le_of_eq hconf.symm)
          simp only [mine_block, hpe, hl, ho, if_true, hok, minedBlock, hmark]
          simp
        · exfalso
          simp [mine_block, hpe, hl, ho, hok, MineResult.isMined] at h
      · exfalso
        simp [mine_block, hpe, hl, ho, MineResult.isMined] at h

theorem create_transaction_insufficient (M : HashModel) (s : LState)
    (sender recipient : String) (amount : ℚ) (ty : TxType)
    (dataJson : Option String) (now : ℤ)
    (h : get_account_balance s sender < amount) :
    create_transaction M s sender recipient amount ty dataJson now =
      (.insufficientBalance, s) := by
  simp [create_transaction, h]

theorem create_transaction_accounts (M : HashModel) (s : LState)
    (sender recipient : String) (amount : ℚ) (ty : TxType)
    (dataJson : Option String) (now : ℤ) :
    (create_transaction M s sender recipient amount ty dataJson now).2.accounts
      = s.accounts ∧
    (create_transaction M s sender recipient amount ty dataJson now).2.blockchain
      = s.blockchain := by
  by_cases h : get_account_balance s sender < amount <;>
    simp [create_transaction, h]

theorem create_transaction_pending (M : HashModel) (s : LState)
    (sender recipient : String) (amount : ℚ) (ty : TxType)
    (dataJson : Option String) (now : ℤ) :
    ∀ t ∈ (create_transaction M s sender recipient amount ty dataJson now).2.pending,
      t ∈ s.pending ∨ t.sender = sender := by
  by_cases h : get_account_balance s sender < amount
  · simp only [create_transaction, if_pos h]
    exact fun t ht => Or.inl ht
  · simp only [create_transaction, if_neg h, List.mem_append]
    intro t ht
    rcases ht with h1 | h1
    · exact Or.inl h1
    · simp only [List.mem_singleton] at h1
      subst h1
      exact Or.inr rfl

theorem networkSum_batch (pending : List Tx) (reward : Tx)
    (hp : ∀ t ∈ pending, t.sender ≠ "NETWORK") (hr : reward.sender = "NETWORK") :
    networkSum (pending ++ [reward]) = reward.amount := by
  have hfil : pending.filter (fun t => t.sender == "NETWORK") = [] := by
    rw [List.filter_eq_nil_iff]
    intro t ht
    simpa using hp t ht
  simp [networkSum, List.filter_append, hfil, hr]

theorem mine_block_mined_sum (M : HashModel) (s : LState)
    (miner : String) (now : ℤ) (rr : String) (o : OracleResult)
    (hnet : ∀ t ∈ s.pending, t.sender ≠ "NETWORK")
    (h : (mine_block M s miner now rr o).1.isMined = true) :
    sumBalances (mine_block M s miner now rr o).2.accounts
      = sumBalances s.accounts + 50 ∧
    (mine_block M s miner now rr o).2.pending = [] := by
  obtain ⟨last, _, _, hok, heq⟩ := mine_block_mined_eq M s miner now rr o h
  rw [heq]
  have hsum := applyTxs_ok_sum (s.pending ++ [rewardTxn M miner now rr]) s.accounts hok
  have hns := networkSum_batch s.pending (rewardTxn M miner now rr) hnet rfl
  rw [hns] at hsum
  have hra : (rewardTxn M miner now rr).amount = 50 := rfl
  rw [hra] at hsum
  exact ⟨hsum, rfl⟩

theorem mine_block_pending_senders (M : HashModel) (s : LState)
    (miner : String) (now : ℤ) (rr : String) (o : OracleResult) :
    ∀ t ∈ (mine_block M s miner now rr o).2.pending,
      ∃ t0 ∈ s.pending, t.sender = t0.sender := by
  by_cases hpe : s.pending.isEmpty
  · simp only [mine_block, hpe, if_true]
    exact fun t ht => ⟨t, ht, rfl⟩
  · cases hl : s.blockchain.getLast? with
    | none =>
      simp only [mine_block, hpe, Bool.false_eq_true, if_false, hl]
      exact fun t ht => ⟨t, ht, rfl⟩
    | some last =>
      by_cases ho : o.success
      · by_cases hok : (applyTxs s.accounts (s.pending ++ [rewardTxn M miner now rr])).ok
        · simp only [mine_block, hpe, Bool.false_eq_true, if_false, hl, ho, if_true, hok]
          simp
        · simp only [mine_block, hpe, Bool.false_eq_true, if_false, hl, ho, if_true, hok]
          exact markConfirmed_sender s.pending _
      · simp only [mine_block, hpe, Bool.false_eq_true, if_false, hl,
          ho, Bool.false_eq_true, if_false]
        exact fun t ht => ⟨t, ht, rfl⟩

/-- No pending transaction pretends to be network-issued. -/
def PendingNetFree (s : LState) : Prop :=
  ∀ t ∈ s.pending, t.sender ≠ "NETWORK"

theorem pendingNetFree_runOp (M : HashModel) (s : LState) (op : Op)
    (hs : PendingNetFree s)
    (hop : ∀ sender recipient amount ty d now,
      op = .createTransaction sender recipient amount ty d now → sender ≠ "NETWORK") :
    PendingNetFree (runOp M s op) := by
  cases op with
  | createAccount suffix =>
    intro t ht
    exact hs t ht
  | createTransaction sender recipient amount ty d now =>
    intro t ht
    rcases create_transaction_pending M s sender recipient amount ty d now t ht with h1 | h1
    · exact hs t h1
    · rw [h1]
      exact hop sender recipient amount ty d now rfl
  | mineBlock miner now rr o =>
    intro t ht
    obtain ⟨t0, ht0, hsend⟩ := mine_block_pending_senders M s miner now rr o t ht
    rw [hsend]
    exact hs t0 ht0

/-- Side conditions making the i-th call of a trace "clean": a created
account address is fresh at that point, a submission does not forge the
NETWORK sender, and a mining call returns a block. -/
def opOkAt (M : HashModel) (init : LState) (ops : List Op) (i : ℕ) : Bool :=
  match ops.getD i (.createAccount "") with
  | .createAccount suffix =>
    !hasKey (run M (ops.take i) init).accounts ("KTR" ++ suffix)
  | .createTransaction sender _ _ _ _ _ => sender != "NETWORK"
  | .mineBlock miner now rr oracle =>
    (mine_block M (run M (ops.take i) init) miner now rr oracle).1.isMined

theorem opOkAt_cons_succ (M : HashModel) (init : LState) (op : Op)
    (rest : List Op) (i : ℕ) :
    opOkAt M init (op :: rest) (i + 1) = opOkAt M (runOp M init op) rest i := by
  simp only [opOkAt, List.getD_cons_succ, List.take_succ_cons, run, List.foldl_cons]

theorem countMines_cons (op : Op) (rest : List Op) :
    countMines (op :: rest) =
      countMines rest + (if op.isMine then 1 else 0) := by
  by_cases h : op.isMine <;> simp [countMines, List.filter_cons, h, Nat.add_comm]

theorem run_sum_aux (M : HashModel) (ops : List Op) (init : LState)
    (hnet : PendingNetFree init)
    (hok : ∀ i, i < ops.length → opOkAt M init ops i = true) :
    sumBalances (run M ops init).accounts
      = sumBalances init.accounts + 50 * countMines ops ∧
    PendingNetFree (run M ops init) := by
  induction ops generalizing init with
  | nil =>
    refine ⟨by simp [run, countMines], ?_⟩
    simpa [run] using hnet
  | cons op rest ih =>
    have h0 : opOkAt M init (op :: rest) 0 = true := hok 0 (by simp)
    have hrest : ∀ i, i < rest.length → opOkAt M (runOp M init op) rest i = true := by
      intro i h
      rw [← opOkAt_cons_succ]
      exact hok (i + 1) (by simpa using Nat.succ_lt_succ h)
    have hrun : run M (op :: rest) init = run M rest (runOp M init op) := rfl
    cases op with
    | createAccount suffix =>
      have hfresh : hasKey init.accounts ("KTR" ++ suffix) = false := by
        simpa [opOkAt, run] using h0
      have hsum0 : sumBalances (runOp M init (.createAccount suffix)).accounts
          = sumBalances init.accounts := by
        simp only [runOp, create_account]
        rw [sumBalances_setBal, getBalD_eq_zero _ _ hfresh]
        ring
      have hnet0 : PendingNetFree (runOp M init (.createAccount suffix)) := by
        intro t ht
        exact hnet t ht
      obtain ⟨hs, hn⟩ := ih (runOp M init (.createAccount suffix)) hnet0 hrest
      refine ⟨?_, by simpa [hrun] using hn⟩
      rw [hrun, hs, hsum0, countMines_cons]
      simp [Op.isMine]
    | createTransaction sender recipient amount ty d now =>
      have hsender : sender ≠ "NETWORK" := by
        simpa [opOkAt] using h0
      have hsum0 : sumBalances
          (runOp M init (.createTransaction sender recipient amount ty d now)).accounts
          = sumBalances init.accounts := by
        simp only [runOp]
        rw [(create_transaction_accounts M init sender recipient amount ty d now).1]
      have hnet0 : PendingNetFree
          (runOp M init (.createTransaction sender recipient amount ty d now)) := by
        refine pendingNetFree_runOp M init _ hnet ?_
        intro s' r' a' t' d' n' heq
        injection heq with e1 e2 e3 e4 e5 e6
        rw [← e1]
        exact hsender
      obtain ⟨hs, hn⟩ := ih _ hnet0 hrest
      refine ⟨?_, by simpa [hrun] using hn⟩
      rw [hrun, hs, hsum0, countMines_cons]
      simp [Op.isMine]
    | mineBlock miner now rr o =>
      have hmined : (mine_block M init miner now rr o).1.isMined = true := by
        simpa [opOkAt, run] using h0
      obtain ⟨hsum0, hpend0⟩ := mine_block_mined_sum M init miner now rr o hnet hmined
      have hnet0 : PendingNetFree (runOp M init (.mineBlock miner now rr o)) := by
        intro t ht
        simp only [runOp, hpend0] at ht
        exact absurd ht (List.not_mem_nil t)
      obtain ⟨hs, hn⟩ := ih _ hnet0 hrest
      refine ⟨?_, by simpa [hrun] using hn⟩
      rw [hrun, hs]
      have : sumBalances (runOp M init (.mineBlock miner now rr o)).accounts
          = sumBalances init.accounts + 50 := hsum0
      rw [this, countMines_cons]
      simp only [Op.isMine, if_true]
      push_cast
      ring

theorem headD_drop (l : List Block) (n : ℕ) (d : Block) :
    (l.drop n).headD d = l.getD n d := by
  rw [List.headD_eq_head?_getD, List.head?_drop, List.getD_eq_getElem?_getD]

theorem getLast?_drop_of_lt (l : List Block) (n : ℕ) (h : n < l.length) :
    (l.drop n).getLast? = l.getLast? := by
  induction l generalizing n with
  | nil => simp at h
  | cons x xs ih =>
    cases n with
    | zero => rfl
    | succ m =>
      have hm : m < xs.length := by simpa using h
      have hxs : xs ≠ [] := by
        intro he
        rw [he] at hm
        simp at hm
      obtain ⟨y, ys, rfl⟩ := List.exists_cons_of_ne_nil hxs
      simp only [List.drop_succ_cons, List.getLast?_cons_cons]
      exact ih m hm

/-- The dead-band retargeting policy exactly as the specification
phrases it: re-evaluate only at a tip whose index is a positive
multiple of 10, using the average inter-block time
`(tip.timestamp - chain[tip.index - 9].timestamp) / 9`; increase by 1
below 30 seconds, decrease by 1 (floored at 1) above 90 seconds,
otherwise keep the tip's difficulty. -/
def specNextDifficulty (chain : List Block) : ℤ :=
  match chain.getLast? with
  | none => 0
  | some tip =>
    if tip.index % 10 = 0 ∧ 0 < tip.index then
      let avg : ℚ :=
        ((tip.timestamp - (chain.getD (tip.index - 9) dummyBlock).timestamp : ℤ) : ℚ) / 9
      if avg < 30 then tip.difficulty + 1
      else if avg > 90 then max (tip.difficulty - 1) 1
      else tip.difficulty
    else tip.difficulty

theorem adjust_difficulty_eq_spec (chain : List Block) (last : Block)
    (hlast : chain.getLast? = some last)
    (hlen : chain.length = last.index + 1) :
    adjust_difficulty chain last = specNextDifficulty chain := by
  simp only [specNextDifficulty, hlast]
  by_cases hidx : last.index % 10 = 0 ∧ 0 < last.index
  · have h10 : 10 ≤ last.index := by
      rcases hidx with ⟨hmod, hpos⟩
      omega
    have hdrop : chain.length - 10 = last.index - 9 := by omega
    have hlt : chain.length - 10 < chain.length := by omega
    have hhead : (chain.drop (chain.length - 10)).headD dummyBlock
        = chain.getD (last.index - 9) dummyBlock := by
      rw [headD_drop, hdrop]
    have htail : (chain.drop (chain.length - 10)).getLastD dummyBlock = last := by
      rw [List.getLastD_eq_getLast?, getLast?_drop_of_lt chain _ hlt, hlast]
      rfl
    simp only [adjust_difficulty, if_pos hidx, hhead, htail]
  · simp only [adjust_difficulty, if_neg hidx]

theorem adjust_difficulty_ge_one (chain : List Block) (last : Block)
    (h : 1 ≤ last.difficulty) : 1 ≤ adjust_difficulty chain last := by
  unfold adjust_difficulty
  by_cases h1 : last.index % 10 = 0 ∧ 0 < last.index
  · simp only [if_pos h1]
    split
    · omega
    · split
      · exact le_max_right _ _
      · exact h
  · simpa [if_neg h1] using h

/-- Chain shape invariant: nonempty with every stored difficulty at
least 1. -/
def ChainGood (s : LState) : Prop :=
  s.blockchain ≠ [] ∧ ∀ b ∈ s.blockchain, 1 ≤ b.difficulty

theorem chainGood_runOp (M : HashModel) (s : LState) (op : Op)
    (h : ChainGood s) : ChainGood (runOp M s op) := by
  obtain ⟨hne, hdiff⟩ := h
  cases op with
  | createAccount suffix => exact ⟨hne, hdiff⟩
  | createTransaction sender recipient amount ty d now =>
    have := (create_transaction_accounts M s sender recipient amount ty d now).2
    constructor
    · simpa only [runOp, this] using hne
    · intro b hb
      rw [runOp] at hb
      rw [this] at hb
      exact hdiff b hb
  | mineBlock miner now rr o =>
    by_cases hpe : s.pending.isEmpty
    · simpa only [runOp, mine_block, hpe, if_true] using ⟨hne, hdiff⟩
    · cases hl : s.blockchain.getLast? with
      | none =>
        simpa only [runOp, mine_block, hpe, Bool.false_eq_true, if_false, hl]
          using ⟨hne, hdiff⟩
      | some last =>
        have hlastmem : last ∈ s.blockchain := List.mem_of_mem_getLast? hl
        have hlast1 : 1 ≤ last.difficulty := hdiff last hlastmem
        have hadj := adjust_difficulty_ge_one s.blockchain last hlast1
        by_cases ho : o.success
        · by_cases hok : (applyTxs s.accounts (s.pending ++ [rewardTxn M miner now rr])).ok
          all_goals
            simp only [runOp, mine_block, hpe, Bool.false_eq_true, if_false, hl,
              ho, if_true, hok]
            refine ⟨by simp, ?_⟩
            intro b hb
            simp only [List.mem_append, List.mem_singleton] at hb
            rcases hb with hb | hb
            · exact hdiff b hb
            · rw [hb]
              exact hadj
        · simpa only [runOp, mine_block, hpe, Bool.false_eq_true, if_false, hl,
            ho, if_false] using ⟨hne, hdiff⟩

theorem chainGood_run (M : HashModel) (ops : List Op) (s : LState)
    (h : ChainGood s) : ChainGood (run M ops s) := by
  induction ops generalizing s with
  | nil => exact h
  | cons op rest ih => exact ih (runOp M s op) (chainGood_runOp M s op h)

/-- All stored balances are non-negative. -/
def NonnegAccounts (s : LState) : Prop :=
  ∀ p ∈ s.accounts, 0 ≤ p.2

theorem nonnegAccounts_runOp_of_not_mine (M : HashModel) (s : LState) (op : Op)
    (h : NonnegAccounts s) (hm : op.isMine = false) :
    NonnegAccounts (runOp M s op) := by
  cases op with
  | createAccount suffix =>
    intro p hp
    exact setBal_nonneg s.accounts ("KTR" ++ suffix) 0 h le_rfl p hp
  | createTransaction sender recipient amount ty d now =>
    intro p hp
    rw [runOp] at hp
    rw [(create_transaction_accounts M s sender recipient amount ty d now).1] at hp
    exact h p hp
  | mineBlock miner now rr o => simp [Op.isMine] at hm

theorem nonnegAccounts_run_of_no_mine (M : HashModel) (ops : List Op) (s : LState)
    (h : NonnegAccounts s) (hm : ∀ op ∈ ops, op.isMine = false) :
    NonnegAccounts (run M ops s) := by
  induction ops generalizing s with
  | nil => exact h
  | cons op rest ih =>
    exact ih (runOp M s op)
      (nonnegAccounts_runOp_of_not_mine M s op h (hm op (by simp)))
      (fun o ho => hm o (List.mem_cons_of_mem _ ho))

theorem nonnegAccounts_init (M : HashModel) (ts : ℤ) :
    NonnegAccounts (kontourInit M emptyDisk ts) := by
  intro p hp
  simp only [kontourInit, emptyDisk, Option.getD_none, List.isEmpty_nil,
    if_true] at hp
  simp only [initialAccounts, List.mem_cons, List.not_mem_nil, or_false] at hp
  rcases hp with h1 | h1 | h1 <;> rw [h1] <;> norm_num

/-- The freshly constructed ledger (`KontourCoin()` on an empty data
directory): genesis chain plus the three initial accounts. -/
def genesisState : LState := kontourInit M0 emptyDisk 0

/-- One honest pending transfer of 100 from the first initial account
to the second. -/
def oneTxState : LState :=
  run M0 [.createTransaction addrA addrB 100 .transfer none 5] genesisState

/-- Two submissions that each pass the (stored-balance) solvency check
but jointly overdraw the sender, followed by a successful mine. -/
def overdraftOps : List Op :=
  [.createTransaction addrA addrB 600000 .transfer none 5,
   .createTransaction addrA addrB 600000 .transfer none 6,
   .mineBlock addrC 7 "7.0" oracleOk]

/-- State after running `overdraftOps` from the genesis state. -/
def overdraftState : LState := run M0 overdraftOps genesisState

/-- A forged NETWORK-sender submission with a negative amount (accepted
because `accounts.get("NETWORK", 0) = 0 ≥ -100`), then a successful
mine: the uncompensated credit of -100 destroys value. -/
def networkDrainOps : List Op :=
  [.createTransaction "NETWORK" addrB (-100) .transfer none 5,
   .mineBlock addrC 6 "6.0" oracleOk]

theorem getLastD_append_singleton (l : List Block) (b d : Block) :
    (l ++ [b]).getLastD d = b := by
  rw [List.getLastD_eq_getLast?, List.getLast?_concat]
  rfl

/-- C9: every mutating operation is atomic on domain error — a
submission rejected for insufficient balance, a mine on an empty pool,
and a mine whose oracle reports failure each return their explicit
error value with the chain, accounts, and pending pool exactly as
before the call. -/
theorem domain_errors_leave_state_unchanged :
    ∀ M : HashModel,
      (∀ (s : LState) (sender recipient : String) (amount : ℚ) (ty : TxType)
          (d : Option String) (now : ℤ),
        get_account_balance s sender < amount →
        create_transaction M s sender recipient amount ty d now =
          (.insufficientBalance, s)) ∧
      (∀ (s : LState) (miner : String) (now : ℤ) (rr : String) (o : OracleResult),
        s.pending = [] → mine_block M s miner now rr o = (.noPending, s)) ∧
      (∀ (s : LState) (miner : String) (now : ℤ) (rr : String) (o : OracleResult),
        s.pending ≠ [] → s.blockchain ≠ [] → o.success = false →
        mine_block M s miner now rr o = (.miningFailed, s)) := by
  intro M
  refine ⟨?_, ?_, ?_⟩
  · intro s sender recipient amount ty d now h
    exact create_transaction_insufficient M s sender recipient amount ty d now h
  · intro s miner now rr o h
    exact mine_block_empty_pool M s miner now rr o h
  · intro s miner now rr o hp hc ho
    exact mine_block_oracle_failed M s miner now rr o hp hc ho

theorem domain_errors_leave_state_unchanged_witness :
    create_transaction M0 genesisState addrA addrB 2000000 .transfer none 5 =
      (.insufficientBalance, genesisState) ∧
    mine_block M0 genesisState addrC 6 "6.0" oracleOk = (.noPending, genesisState) ∧
    mine_block M0 oneTxState addrC 6 "6.0" oracleFail = (.miningFailed, oneTxState) := by
  refine ⟨?_, ?_, ?_⟩
  · exact (domain_errors_leave_state_unchanged M0).1 genesisState addrA addrB
      2000000 .transfer none 5
      (by norm_num [get_account_balance, genesisState, kontourInit, emptyDisk,
        initialAccounts, getBalD, addrA])
  · exact (domain_errors_leave_state_unchanged M0).2.1 genesisState addrC 6 "6.0" oracleOk
      (by norm_num [genesisState, kontourInit, emptyDisk])
  · exact (domain_errors_leave_state_unchanged M0).2.2 oneTxState addrC 6 "6.0" oracleFail
      (by norm_num +decide [oneTxState, genesisState, run, runOp, kontourInit, emptyDisk,
        create_transaction, get_account_balance, getBalD, initialAccounts, addrA, addrB])
      (by norm_num +decide [oneTxState, genesisState, run, runOp, kontourInit, emptyDisk,
        create_transaction, get_account_balance, getBalD, initialAccounts, addrA, addrB])
      rfl

/-- C10: querying the balance of an address with no account entry
returns 0 and never fails, and a submission from an unknown sender
succeeds exactly when the amount is at most 0. -/
theorem unknown_address_zero_balance :
    ∀ (M : HashModel) (s : LState) (address : String),
      hasKey s.accounts address = false →
      get_account_balance s address = 0 ∧
      ∀ (recipient : String) (amount : ℚ) (ty : TxType) (d : Option String) (now : ℤ),
        ((create_transaction M s address recipient amount ty d now).1.isCreated = true ↔
          amount ≤ 0) := by
  intro M s address h
  have hz : get_account_balance s address = 0 := getBalD_eq_zero s.accounts address h
  refine ⟨hz, ?_⟩
  intro recipient amount ty d now
  by_cases hc : get_account_balance s address < amount
  · rw [create_transaction_insufficient M s address recipient amount ty d now hc]
    rw [hz] at hc
    constructor
    · intro habs
      simp [TxResult.isCreated] at habs
    · intro hle
      exact absurd (lt_of_lt_of_le hc hle) (lt_irrefl 0)
  · rw [hz] at hc
    simp only [create_transaction, hz, hc, if_false]
    constructor
    · intro _
      exact le_of_not_lt hc
    · intro _
      simp [TxResult.isCreated]

theorem unknown_address_zero_balance_witness :
    get_account_balance genesisState "KTRX" = 0 ∧
    ((create_transaction M0 genesisState "KTRX" addrA (-5) .transfer none 3).1.isCreated
      = true ↔ (-5 : ℚ) ≤ 0) := by
  have h := unknown_address_zero_balance M0 genesisState "KTRX"
    (by norm_num +decide [genesisState, kontourInit, emptyDisk, initialAccounts, hasKey])
  exact ⟨h.1, h.2 addrA (-5) .transfer none 3⟩

/-- C1 (amended): `mine_block` performs no re-verification of the
oracle's answer — on `success = false` it returns the mining-failure
error with the state untouched, and on a mined result it commits the
block carrying the oracle's claimed nonce and hash verbatim, appended
to the chain, with no recomputation and no difficulty re-check. -/
theorem mining_trusts_oracle_blindly :
    ∀ (M : HashModel) (s : LState) (miner : String) (now : ℤ) (rr : String)
      (o : OracleResult),
      (o.success = false → s.pending ≠ [] → s.blockchain ≠ [] →
        mine_block M s miner now rr o = (.miningFailed, s)) ∧
      ((mine_block M s miner now rr o).1.isMined = true →
        ((mine_block M s miner now rr o).2.blockchain.getLastD dummyBlock).nonce
          = o.nonce ∧
        ((mine_block M s miner now rr o).2.blockchain.getLastD dummyBlock).hash
          = o.hash ∧
        (mine_block M s miner now rr o).2.blockchain = s.blockchain ++
          [(mine_block M s miner now rr o).2.blockchain.getLastD dummyBlock]) := by
  intro M s miner now rr o
  refine ⟨fun ho hp hc => mine_block_oracle_failed M s miner now rr o hp hc ho, ?_⟩
  intro h
  obtain ⟨last, _, _, _, heq⟩ := mine_block_mined_eq M s miner now rr o h
  rw [heq]
  simp [getLastD_append_singleton, minedBlock]

theorem mining_trusts_oracle_blindly_witness :
    mine_block M0 oneTxState addrC 6 "6.0" oracleFail = (.miningFailed, oneTxState) ∧
    ((mine_block M0 oneTxState addrC 6 "6.0" oracleBogus).2.blockchain.getLastD
      dummyBlock).hash = oracleBogus.hash := by
  constructor
  · exact (mining_trusts_oracle_blindly M0 oneTxState addrC 6 "6.0" oracleFail).1
      rfl
      (by norm_num +decide [oneTxState, genesisState, run, runOp, kontourInit, emptyDisk,
        create_transaction, get_account_balance, getBalD, initialAccounts, addrA, addrB])
      (by norm_num +decide [oneTxState, genesisState, run, runOp, kontourInit, emptyDisk,
        create_transaction, get_account_balance, getBalD, initialAccounts, addrA, addrB])
  · exact ((mining_trusts_oracle_blindly M0 oneTxState addrC 6 "6.0" oracleBogus).2
      (by norm_num +decide [oneTxState, genesisState, run, runOp, kontourInit, emptyDisk,
        create_transaction, get_account_balance, getBalD, setBal, hasKey, mine_block,
        initialAccounts, addrA, addrB, addrC, oracleBogus, rewardTxn, applyTxs, debitStep,
        creditStep, markConfirmed, adjust_difficulty, genesisBlock, calculate_hash,
        zeros64, MineResult.isMined])).2.1

/-- C1 counterexample: from the genesis state with one pending
transfer, an oracle reply claiming success with the hash
`"f000000000000000"` — which fails `_check_hash_difficulty` at the
block's difficulty 4 and does not match any recomputation — is
committed anyway: `mine_block` returns the mined block, the chain grows
to length 2, and the stored tip hash is the bogus claimed hash, where
the claim requires an oracle-failure error and no commit. -/
theorem mining_commits_unverified_oracle_hash :
    (mine_block M0 oneTxState addrC 6 "6.0" oracleBogus).1.isMined = true ∧
    (mine_block M0 oneTxState addrC 6 "6.0" oracleBogus).2.blockchain.length = 2 ∧
    ((mine_block M0 oneTxState addrC 6 "6.0" oracleBogus).2.blockchain.getLastD
      dummyBlock).hash = "f000000000000000" ∧
    ((mine_block M0 oneTxState addrC 6 "6.0" oracleBogus).2.blockchain.getLastD
      dummyBlock).difficulty = 4 ∧
    check_hash_difficulty "f000000000000000" 4 = false := by
  refine ⟨?_, ?_, ?_, ?_, ?_⟩ <;>
    norm_num +decide [oneTxState, genesisState, run, runOp, kontourInit, emptyDisk,
      create_transaction, get_account_balance, getBalD, setBal, hasKey, mine_block,
      initialAccounts, addrA, addrB, addrC, oracleBogus, rewardTxn, applyTxs, debitStep,
      creditStep, markConfirmed, adjust_difficulty, genesisBlock, calculate_hash,
      zeros64, MineResult.isMined, check_hash_difficulty, hexVal, hexDigitVal, Int.fdiv]

/-- C2 (amended): at mining time no sender balance is re-checked —
every pending transaction (plus the reward) is included in the mined
block unconditionally and the pending pool is cleared entirely, so a
transaction that would overdraw given earlier transactions in the same
batch is committed rather than dropped and returned to pending. -/
theorem mining_includes_all_pending_without_revalidation :
    ∀ (M : HashModel) (s : LState) (miner : String) (now : ℤ) (rr : String)
      (o : OracleResult),
      (mine_block M s miner now rr o).1.isMined = true →
      (mine_block M s miner now rr o).2.pending = [] ∧
      ((mine_block M s miner now rr o).2.blockchain.getLastD dummyBlock).transactions
        = (s.pending ++ [rewardTxn M miner now rr]).map confirmTx := by
  intro M s miner now rr o h
  obtain ⟨last, _, _, _, heq⟩ := mine_block_mined_eq M s miner now rr o h
  rw [heq]
  simp [getLastD_append_singleton, minedBlock]

theorem mining_includes_all_pending_without_revalidation_witness :
    (mine_block M0 oneTxState addrC 6 "6.0" oracleOk).2.pending = [] ∧
    ((mine_block M0 oneTxState addrC 6 "6.0" oracleOk).2.blockchain.getLastD
      dummyBlock).transactions
      = (oneTxState.pending ++ [rewardTxn M0 addrC 6 "6.0"]).map confirmTx := by
  exact mining_includes_all_pending_without_revalidation M0 oneTxState addrC 6 "6.0"
    oracleOk
    (by norm_num +decide [oneTxState, genesisState, run, runOp, kontourInit, emptyDisk,
      create_transaction, get_account_balance, getBalD, setBal, hasKey, mine_block,
      initialAccounts, addrA, addrB, addrC, oracleOk, rewardTxn, applyTxs, debitStep,
      creditStep, markConfirmed, adjust_difficulty, genesisBlock, calculate_hash,
      zeros64, MineResult.isMined])

/-- C2 counterexample: two submissions of 600000 each from the same
1000000-balance account both pass the submission-time check; the claim
requires the second to be dropped from the block and returned to
pending at assembly time, but the mined block contains all three
transactions (both transfers plus the reward), the pool ends empty, and
the sender's committed balance is -200000. -/
theorem mining_commits_overdrawing_batch :
    (mine_block M0 (run M0 (overdraftOps.take 2) genesisState) addrC 7 "7.0"
      oracleOk).1.isMined = true ∧
    overdraftState.pending = [] ∧
    (overdraftState.blockchain.getLastD dummyBlock).transactions.length = 3 ∧
    get_account_balance overdraftState addrA = -200000 := by
  refine ⟨?_, ?_, ?_, ?_⟩ <;>
    norm_num +decide [overdraftState, overdraftOps, oneTxState, genesisState, run, runOp,
      kontourInit, emptyDisk, create_transaction, get_account_balance, getBalD, setBal,
      hasKey, mine_block, initialAccounts, addrA, addrB, addrC, oracleOk, rewardTxn,
      applyTxs, debitStep, creditStep, markConfirmed, adjust_difficulty, genesisBlock,
      calculate_hash, zeros64, MineResult.isMined]

/-- C3 (amended): every account balance is non-negative in every state
reached from genesis by account creation and transaction submission
alone; mining (which applies unchecked debits) is what can drive
balances negative. -/
theorem balances_nonneg_without_mining :
    ∀ (M : HashModel) (ts : ℤ) (ops : List Op),
      (∀ op ∈ ops, op.isMine = false) →
      ∀ address : String,
        0 ≤ get_account_balance (run M ops (kontourInit M emptyDisk ts)) address := by
  intro M ts ops hops address
  exact getBalD_nonneg _ address
    (nonnegAccounts_run_of_no_mine M ops (kontourInit M emptyDisk ts)
      (nonnegAccounts_init M ts) hops)

theorem balances_nonneg_without_mining_witness :
    0 ≤ get_account_balance
      (run M0 [.createAccount "Z000000000000000000000000000000",
               .createTransaction addrA addrB 100 .transfer none 5]
        (kontourInit M0 emptyDisk 0)) addrA := by
  exact balances_nonneg_without_mining M0 0
    [.createAccount "Z000000000000000000000000000000",
     .createTransaction addrA addrB 100 .transfer none 5]
    (by intro op hop
        simp only [List.mem_cons, List.not_mem_nil, or_false] at hop
        rcases hop with h | h <;> rw [h] <;> rfl)
    addrA

/-- C3 counterexample: the overdraft trace — two individually solvent
600000 submissions followed by one successful mine — reaches a ledger
state in which the first initial account's stored balance is -200000,
so non-negativity does not hold for all reachable states. -/
theorem mining_reaches_negative_balance :
    opOkAt M0 genesisState overdraftOps 0 = true ∧
    opOkAt M0 genesisState overdraftOps 1 = true ∧
    opOkAt M0 genesisState overdraftOps 2 = true ∧
    get_account_balance overdraftState addrA = -200000 ∧
    get_account_balance overdraftState addrA < 0 := by
  refine ⟨?_, ?_, ?_, ?_, ?_⟩ <;>
    norm_num +decide [opOkAt, overdraftState, overdraftOps, genesisState, run, runOp,
      kontourInit, emptyDisk, create_transaction, get_account_balance, getBalD, setBal,
      hasKey, mine_block, initialAccounts, addrA, addrB, addrC, oracleOk, rewardTxn,
      applyTxs, debitStep, creditStep, markConfirmed, adjust_difficulty, genesisBlock,
      calculate_hash, zeros64, MineResult.isMined]

/-- C4 (amended): hash integrity holds for the genesis block —
recomputing `_calculate_hash` over the stored block reproduces
`block.hash` — but not for mined blocks: a mined block stores the
oracle's claimed hash verbatim, and whenever that claimed hash is not a
64-character sha256 hexdigest (the in-repo oracle's simulated hashes
have 16 characters), recomputing `_calculate_hash` over the stored
block cannot reproduce it. -/
theorem hash_integrity_genesis_only :
    (∀ (M : HashModel) (ts : ℤ),
      (genesisBlock M ts).hash = calculate_hash M (genesisBlock M ts)) ∧
    (∀ (M : HashModel) (s : LState) (miner : String) (now : ℤ) (rr : String)
        (o : OracleResult),
      (mine_block M s miner now rr o).1.isMined = true →
      (∀ x : String, (M.sha256 x).length = 64) →
      o.hash.length ≠ 64 →
      ((mine_block M s miner now rr o).2.blockchain.getLastD dummyBlock).hash
        = o.hash ∧
      calculate_hash M
          ((mine_block M s miner now rr o).2.blockchain.getLastD dummyBlock)
        ≠ ((mine_block M s miner now rr o).2.blockchain.getLastD dummyBlock).hash) := by
  constructor
  · intro M ts
    rfl
  · intro M s miner now rr o h hsha hlen
    obtain ⟨last, _, _, _, heq⟩ := mine_block_mined_eq M s miner now rr o h
    rw [heq]
    rw [getLastD_append_singleton]
    refine ⟨rfl, ?_⟩
    intro he
    apply hlen
    have hb : (minedBlock M s miner now rr o last).hash = o.hash := rfl
    rw [← hb, ← he, calculate_hash]
    exact hsha _

theorem hash_integrity_genesis_only_witness :
    (genesisBlock M0 0).hash = calculate_hash M0 (genesisBlock M0 0) ∧
    calculate_hash M0
        ((mine_block M0 oneTxState addrC 6 "6.0" oracleOk).2.blockchain.getLastD
          dummyBlock)
      ≠ ((mine_block M0 oneTxState addrC 6 "6.0" oracleOk).2.blockchain.getLastD
          dummyBlock).hash := by
  constructor
  · exact hash_integrity_genesis_only.1 M0 0
  · exact (hash_integrity_genesis_only.2 M0 oneTxState addrC 6 "6.0" oracleOk
      (by norm_num +decide [oneTxState, genesisState, run, runOp, kontourInit, emptyDisk,
        create_transaction, get_account_balance, getBalD, setBal, hasKey, mine_block,
        initialAccounts, addrA, addrB, addrC, oracleOk, rewardTxn, applyTxs, debitStep,
        creditStep, markConfirmed, adjust_difficulty, genesisBlock, calculate_hash,
        zeros64, MineResult.isMined])
      (fun x => rfl)
      (by norm_num +decide [oracleOk, toHex16, Nat.toDigits, Nat.toDigitsCore])).2

/-- C4 counterexample: a concrete mined block — genesis plus one
transfer, mined with a success-reporting oracle — whose stored tip hash
is the oracle's 16-character simulated hash, while recomputing the hash
over the canonicalized stored block (hash field removed) yields the
64-character sha256 digest: the recomputation does not reproduce
`block.hash` for this mined block. -/
theorem mined_block_hash_not_reproducible :
    (mine_block M0 oneTxState addrC 6 "6.0" oracleOk).1.isMined = true ∧
    ((mine_block M0 oneTxState addrC 6 "6.0" oracleOk).2.blockchain.getLastD
      dummyBlock).hash = toHex16 0 ∧
    calculate_hash M0
        ((mine_block M0 oneTxState addrC 6 "6.0" oracleOk).2.blockchain.getLastD
          dummyBlock)
      ≠ ((mine_block M0 oneTxState addrC 6 "6.0" oracleOk).2.blockchain.getLastD
          dummyBlock).hash := by
  refine ⟨?_, ?_, ?_⟩ <;>
    norm_num +decide [oneTxState, genesisState, run, runOp, kontourInit, emptyDisk,
      create_transaction, get_account_balance, getBalD, setBal, hasKey, mine_block,
      initialAccounts, addrA, addrB, addrC, oracleOk, rewardTxn, applyTxs, debitStep,
      creditStep, markConfirmed, adjust_difficulty, genesisBlock, calculate_hash,
      zeros64, MineResult.isMined, toHex16, Nat.toDigits, Nat.toDigitsCore, M0]

/-- C5 (amended): for every initial ledger state whose pending pool
contains no NETWORK-sender transaction, and every sequence of API calls
in which every submission uses a non-NETWORK sender, every created
account address is fresh at its point of execution, and every mining
call succeeds, the sum of all balances afterwards equals the initial
sum plus 50 per mining call; no other operation creates or destroys
value.  (Unrestricted, the claim is false: the code accepts
NETWORK-sender submissions with non-positive amounts, whose
uncompensated negative credits destroy value, and an address-colliding
`create_account` resets an existing balance to 0.) -/
theorem conservation_under_guarded_traces :
    ∀ (M : HashModel) (init : LState) (ops : List Op),
      PendingNetFree init →
      (∀ i, i < ops.length → opOkAt M init ops i = true) →
      sumBalances (run M ops init).accounts
        = sumBalances init.accounts + 50 * countMines ops := by
  intro M init ops hnet hok
  exact (run_sum_aux M ops init hnet hok).1

theorem conservation_under_guarded_traces_witness :
    sumBalances (run M0
        [.createTransaction addrA addrB 100 .transfer none 5,
         .mineBlock addrC 6 "6.0" oracleOk] genesisState).accounts
      = sumBalances genesisState.accounts + 50 *
        countMines [.createTransaction addrA addrB 100 .transfer none 5,
          .mineBlock addrC 6 "6.0" oracleOk] := by
  apply conservation_under_guarded_traces M0 genesisState
  · intro t ht
    simp only [genesisState, kontourInit, emptyDisk, Option.getD_none,
      List.isEmpty_nil, if_true] at ht
    exact absurd ht (List.not_mem_nil t)
  · intro i hi
    have h2 : i < 2 := by simpa using hi
    interval_cases i <;>
      norm_num +decide [opOkAt, genesisState, run, runOp, kontourInit, emptyDisk,
        create_transaction, get_account_balance, getBalD, setBal, hasKey, mine_block,
        initialAccounts, addrA, addrB, addrC, oracleOk, rewardTxn, applyTxs, debitStep,
        creditStep, markConfirmed, adjust_difficulty, genesisBlock, calculate_hash,
        zeros64, MineResult.isMined]

/-- C5 counterexample: a NETWORK-sender submission of amount -100 is
accepted (the solvency check `accounts.get("NETWORK", 0) >= -100`
passes), and the subsequent successful mine credits the recipient -100
without debiting anyone; the trace contains exactly one successful
mining operation, yet the balance sum moves from 1750000 to 1749950
instead of the claimed 1750000 + 50 * 1 = 1750050. -/
theorem network_sender_tx_destroys_value :
    (create_transaction M0 genesisState "NETWORK" addrB (-100) .transfer none 5).1.isCreated
      = true ∧
    (mine_block M0 (run M0 (networkDrainOps.take 1) genesisState) addrC 6 "6.0"
      oracleOk).1.isMined = true ∧
    countMines networkDrainOps = 1 ∧
    sumBalances genesisState.accounts = 1750000 ∧
    sumBalances (run M0 networkDrainOps genesisState).accounts = 1749950 ∧
    (1749950 : ℚ) ≠ 1750000 + 50 * 1 := by
  refine ⟨?_, ?_, ?_, ?_, ?_, ?_⟩ <;>
    norm_num +decide [networkDrainOps, genesisState, run, runOp, kontourInit, emptyDisk,
      create_transaction, get_account_balance, getBalD, setBal, hasKey, mine_block,
      initialAccounts, addrA, addrB, addrC, oracleOk, rewardTxn, applyTxs, debitStep,
      creditStep, markConfirmed, adjust_difficulty, genesisBlock, calculate_hash,
      zeros64, MineResult.isMined, TxResult.isCreated, countMines, Op.isMine,
      sumBalances]

/-- C6: the persistence round trip is broken — restoring a fresh ledger
from a snapshot of the genesis state reproduces the chain but leaves
the account map empty, because `__init__` calls only `_load_blockchain`
and never the `_load_accounts` it defines; the restored accounts are
not structurally equal to the pre-save accounts. -/
theorem restart_loses_account_balances :
    (kontourInit M0 (snapshotOf genesisState) 1).blockchain
      = genesisState.blockchain ∧
    genesisState.accounts = initialAccounts ∧
    (kontourInit M0 (snapshotOf genesisState) 1).accounts = [] ∧
    (kontourInit M0 (snapshotOf genesisState) 1).accounts ≠ genesisState.accounts := by
  refine ⟨?_, ?_, ?_, ?_⟩ <;>
    norm_num +decide [genesisState, kontourInit, emptyDisk, snapshotOf,
      initialAccounts, genesisBlock, calculate_hash, zeros64, M0]

/-- C7: mining with a fresh miner address does not create the account
implicitly — the reward credit `self.accounts[miner] += 50` raises
`KeyError`; worse, the block was already appended and the transfer's
debit and credit already applied, so the crash leaves a partial commit:
chain length 2, `A = 999900`, `B = 500100`, no entry for the miner, and
the pending pool not cleared. -/
theorem fresh_miner_keyerror_partial_commit :
    (mine_block M0 oneTxState "KTRM" 6 "6.0" oracleOk).1 = .keyError ∧
    (mine_block M0 oneTxState "KTRM" 6 "6.0" oracleOk).2.blockchain.length = 2 ∧
    (mine_block M0 oneTxState "KTRM" 6 "6.0" oracleOk).2.pending.length = 1 ∧
    getBalD (mine_block M0 oneTxState "KTRM" 6 "6.0" oracleOk).2.accounts addrA
      = 999900 ∧
    getBalD (mine_block M0 oneTxState "KTRM" 6 "6.0" oracleOk).2.accounts addrB
      = 500100 ∧
    hasKey (mine_block M0 oneTxState "KTRM" 6 "6.0" oracleOk).2.accounts "KTRM"
      = false := by
  refine ⟨?_, ?_, ?_, ?_, ?_, ?_⟩ <;>
    norm_num +decide [oneTxState, genesisState, run, runOp, kontourInit, emptyDisk,
      create_transaction, get_account_balance, getBalD, setBal, hasKey, mine_block,
      initialAccounts, addrA, addrB, oracleOk, rewardTxn, applyTxs, debitStep,
      creditStep, markConfirmed, adjust_difficulty, genesisBlock, calculate_hash,
      zeros64]

theorem chainGood_init (M : HashModel) (ts : ℤ) :
    ChainGood (kontourInit M emptyDisk ts) := by
  constructor
  · simp [kontourInit, emptyDisk]
  · intro b hb
    simp only [kontourInit, emptyDisk, Option.getD_none, List.isEmpty_nil, if_true,
      List.mem_singleton] at hb
    rw [hb]
    norm_num [genesisBlock]

/-- C8: the retargeting follows the dead-band policy exactly —
`_adjust_difficulty` agrees with the specification's formula (tip
difficulty unchanged off-epoch; at a tip whose index is a positive
multiple of 10, compare `(tip.timestamp - chain[tip.index - 9].timestamp)/9`
with the 30/90 dead band, flooring decreases at 1) for every chain
whose length is `tip.index + 1`, and every block in every chain
reachable from genesis has difficulty at least 1. -/
theorem difficulty_retarget_deadband_and_floor :
    (∀ (chain : List Block) (last : Block),
      chain.getLast? = some last → chain.length = last.index + 1 →
      adjust_difficulty chain last = specNextDifficulty chain) ∧
    (∀ (M : HashModel) (ops : List Op) (ts : ℤ),
      ∀ b ∈ (run M ops (kontourInit M emptyDisk ts)).blockchain,
        1 ≤ b.difficulty) := by
  constructor
  · exact adjust_difficulty_eq_spec
  · intro M ops ts b hb
    exact (chainGood_run M ops (kontourInit M emptyDisk ts) (chainGood_init M ts)).2 b hb

theorem difficulty_retarget_deadband_and_floor_witness :
    adjust_difficulty [genesisBlock M0 0] (genesisBlock M0 0)
      = specNextDifficulty [genesisBlock M0 0] ∧
    1 ≤ (genesisBlock M0 0).difficulty := by
  constructor
  · exact difficulty_retarget_deadband_and_floor.1 [genesisBlock M0 0]
      (genesisBlock M0 0) rfl rfl
  · exact difficulty_retarget_deadband_and_floor.2 M0 [] 0 (genesisBlock M0 0)
      (by norm_num [run, kontourInit, emptyDisk])
